import Mathlib

/-!
Verification development for the Mac-Room-Checker repository
(McMaster timetable scraper).

The Python sources are shallowly embedded as Lean definitions:

* `Xml` models an lxml element tree (tag, attributes, text, children);
  `findDesc` models `root.find(".//t")` (first matching proper
  descendant in document order), `childrenTagged` models
  `el.findall("./t")`, `descWithTag` models `el.findall(".//t")`.
* `parse_addcourse_xml` embeds the XML normalizer of
  `ClassList Scraper/intercept_scrape_ui.py`.
* `save_to_db` embeds the persistence routine of the same file.  A
  Python exception inside `save_to_db` escapes before `con.commit()`,
  so the open transaction is rolled back when the connection closes:
  this is modelled by returning `Option DB`, `none` meaning the
  database is unchanged.
* `cleanRun` embeds the main loop of `ClassList Scraper/cleandata.py`.
* `runTrace` embeds the control flow of `run()` in
  `intercept_scrape_ui.py` as an event trace.

Machine integers are `Int` (Python ints are unbounded); Python `str`
of an int is `intStr`; `%02d` formatting is `pyFmt02`; `//` and `%`
are `Int.fdiv` / `Int.fmod` (floor semantics, as in Python).
-/

mutual

/-- An lxml element: tag name, attribute list, optional text, children. -/
inductive Xml where
  | elem (tag : String) (attrs : List (String × String)) (txt : Option String)
      (children : XmlForest)

/-- The children of an element as a cons list of its own; a separate
type keeps structural recursion over the tree available. -/
inductive XmlForest where
  | nil
  | cons (head : Xml) (tail : XmlForest)

end

/-- View of a forest as an ordinary list. -/
def XmlForest.toList : XmlForest → List Xml
  | .nil => []
  | .cons h t => h :: t.toList

/-- Build a forest from an ordinary list. -/
def xf : List Xml → XmlForest
  | [] => .nil
  | h :: t => .cons h (xf t)

def Xml.tag : Xml → String
  | .elem t _ _ _ => t

def Xml.attrs : Xml → List (String × String)
  | .elem _ a _ _ => a

def Xml.txt : Xml → Option String
  | .elem _ _ x _ => x

def Xml.children : Xml → List Xml
  | .elem _ _ _ c => c.toList

/-- Embeds `el.get(k)`: attribute lookup, `None` when absent. -/
def Xml.get (x : Xml) (k : String) : Option String :=
  (x.attrs.find? (fun p => p.1 == k)).map (·.2)

mutual

/-- An element followed by all its descendants, document order. -/
def Xml.selfDesc : Xml → List Xml
  | .elem t a x cs => .elem t a x cs :: descForest cs

/-- The elements of a forest in document order, each followed by its
own descendants. -/
def descForest : XmlForest → List Xml
  | .nil => []
  | .cons h t => h.selfDesc ++ descForest t

end

/-- All proper descendants of an element in document order. -/
def Xml.descendants : Xml → List Xml
  | .elem _ _ _ cs => descForest cs

/-- Embeds `root.find(".//t")`: first proper descendant with the given tag. -/
def findDesc (x : Xml) (t : String) : Option Xml :=
  x.descendants.find? (fun e => e.tag == t)

/-- Embeds `el.findall(".//t")`: all proper descendants with the given tag. -/
def descWithTag (x : Xml) (t : String) : List Xml :=
  x.descendants.filter (fun e => e.tag == t)

/-- Embeds `el.findall("./t")`: direct children with the given tag. -/
def childrenTagged (x : Xml) (t : String) : List Xml :=
  x.children.filter (fun e => e.tag == t)

/-- Embeds `el.find("./t")`: first direct child with the given tag. -/
def findChild (x : Xml) (t : String) : Option Xml :=
  (childrenTagged x t).head?

/-- ASCII whitespace as matched by `\s` and stripped by `str.strip`. -/
def isSpaceChar (c : Char) : Bool :=
  c == ' ' || c == '\t' || c == '\n' || c == '\r' || c == '\x0b' || c == '\x0c'

/-- Characters of `str.strip(s)`: whitespace dropped at both ends. -/
def pyStripChars (cs : List Char) : List Char :=
  ((cs.dropWhile isSpaceChar).reverse.dropWhile isSpaceChar).reverse

/-- Python `s.strip()` (ASCII whitespace). -/
def pyStrip (s : String) : String := ⟨pyStripChars s.data⟩

/-- Characters of `s.split(",")`: split at every comma, empty pieces
kept, `[""]` for the empty string. -/
def splitCommaChars : List Char → List (List Char)
  | [] => [[]]
  | c :: cs =>
    if c == ',' then [] :: splitCommaChars cs
    else
      match splitCommaChars cs with
      | [] => [[c]]
      | p :: ps => (c :: p) :: ps

/-- Python `s.split(",")`. -/
def pySplitComma (s : String) : List String :=
  (splitCommaChars s.data).map (fun l => ⟨l⟩)

/-- Python `sep.join(parts)`. -/
def pyJoin (sep : String) : List String → String
  | [] => ""
  | [x] => x
  | x :: xs => x ++ sep ++ pyJoin sep xs

/-- Python `str.upper()` on an ASCII character. -/
def pyUpperChar (c : Char) : Char :=
  if 'a' ≤ c && c ≤ 'z' then Char.ofNat (c.toNat - 32) else c

/-- Python `s.upper()` (ASCII). -/
def pyUpper (s : String) : String := ⟨s.data.map pyUpperChar⟩

/-- One entry of the per-`uselection` `tb_map` dictionary. -/
structure TimeblockRec where
  tbid : Option String
  day : Option String
  t1 : Option String
  t2 : Option String
deriving Repr, DecidableEq, Inhabited

/-- One entry of a selection's `blocks` list. -/
structure BlockRec where
  type : Option String
  secNo : Option String
  room : String
  timeblocks : List TimeblockRec
deriving Repr, DecidableEq

/-- One selection record produced by the normalizer. -/
structure SelectionRec where
  selection_key : Option String
  variant_va : String
  blocks : List BlockRec
deriving Repr, DecidableEq

/-- The course record produced by the normalizer. -/
structure CourseRec where
  course_key : Option String
  code : Option String
  number : Option String
  title : String
  term_label : Option String
  raw_term : Option String
deriving Repr, DecidableEq

/-- The `tb_map` dictionary entry for one `timeblock` element: its key is
the `id` attribute (possibly `None`), its value the attribute record. -/
def tbEntry (tb : Xml) : Option String × TimeblockRec :=
  (tb.get "id",
   { tbid := tb.get "id", day := tb.get "day", t1 := tb.get "t1", t2 := tb.get "t2" })

/-- Embeds `tb_map[i]` for a string key `i`; Python dict comprehension keeps the
last entry for a duplicated key, hence the `reverse`. -/
def tbFind (tbs : List Xml) (i : String) : Option TimeblockRec :=
  (((tbs.map tbEntry).reverse.find? (fun e => e.1 == some i)).map (·.2))

/-- Embeds `i in tb_map` for a string key `i`. -/
def tbMem (tbs : List Xml) (i : String) : Bool :=
  (tbFind tbs i).isSome

/-- One `block` element turned into a record: split the comma-separated
`timeblockids` attribute and keep, in order, the ids found in `tb_map`
(`[tb_map[i] for i in ids if i in tb_map]`). -/
def mkBlock (tbs : List Xml) (blk : Xml) : BlockRec :=
  let ids := pySplitComma ((blk.get "timeblockids").getD "")
  { type := blk.get "type",
    secNo := blk.get "secNo",
    room := (blk.get "location").getD "",
    timeblocks := (ids.filter (fun i => tbMem tbs i)).map
      (fun i => (tbFind tbs i).getD default) }

/-- One `uselection` element turned into a selection record; a
`uselection` without a `selection` child is skipped (`continue`). -/
def mkSel (usel : Xml) : Option SelectionRec :=
  match findChild usel "selection" with
  | none => none
  | some selEl =>
    some { selection_key := selEl.get "key",
           variant_va := (selEl.get "va").getD "",
           blocks := (childrenTagged selEl "block").map
             (mkBlock (childrenTagged usel "timeblock")) }

/-- The `err_msg` computed in the failure branch of
`parse_addcourse_xml`: the stripped text of the first `errors`
descendant followed by the stripped texts of its `error` descendants,
empty parts dropped, joined with `" | "`. -/
def errMsgOf (root : Xml) : String :=
  match findDesc root "errors" with
  | none => ""
  | some en =>
    let parts := pyStrip ((en.txt).getD "") ::
      (descWithTag en "error").map (fun e => pyStrip ((e.txt).getD ""))
    pyJoin " | " (parts.filter (fun p => p != ""))

/-- Embedding of `parse_addcourse_xml` (`intercept_scrape_ui.py`):
raises `ValueError` — modelled as `.error` — when the first `course`
descendant or the first `classdata` descendant is missing; otherwise
returns the course record and one selection record per `uselection`
child of the course element that has a `selection` child. -/
def parse_addcourse_xml (root : Xml) :
    Except String (CourseRec × List SelectionRec) :=
  match findDesc root "course", findDesc root "classdata" with
  | some ce, some cd =>
    let course : CourseRec :=
      { course_key := ce.get "key",
        code := ce.get "code",
        number := ce.get "number",
        title := (ce.get "title").getD "",
        term_label := match findChild cd "term" with
          | some t => t.get "v"
          | none => some "",
        raw_term := match findChild cd "term" with
          | some t => t.get "n"
          | none => some "" }
    .ok (course, (childrenTagged ce "uselection").filterMap mkSel)
  | _, _ =>
    .error ("No <classdata>/<course>. errors='" ++ errMsgOf root ++ "'")

/-- Decimal digit character, `digitChar n = '0' + n` for `n < 10`. -/
def digitChar (n : Nat) : Char := Char.ofNat (48 + n)

/-- Fuel-bounded decimal printer; with fuel at least `n` the fuel
never runs out. -/
def natDigitsF : Nat → Nat → List Char
  | 0, n => [digitChar n]
  | fuel + 1, n =>
    if n < 10 then [digitChar n]
    else natDigitsF fuel (n / 10) ++ [digitChar (n % 10)]

/-- Decimal digits of a natural number, most significant first. -/
def natDigits (n : Nat) : List Char := natDigitsF n n

/-- Python `str` of a non-negative int. -/
def natStr (n : Nat) : String := ⟨natDigits n⟩

/-- Python `str` of an int. -/
def intStr (d : Int) : String :=
  if d < 0 then "-" ++ natStr d.natAbs else natStr d.toNat

/-- Python `f"{n:02d}"`: minimum width two, zero padded, the sign
counting toward the width. -/
def pyFmt02 (n : Int) : String :=
  if n < 0 then "-" ++ natStr n.natAbs
  else if n < 10 then "0" ++ natStr n.toNat
  else natStr n.toNat

/-- Embedding of `minutes_to_hhmm`; Python `//` and `%` floor. -/
def minutes_to_hhmm (m : Int) : String :=
  pyFmt02 (Int.fdiv m 60) ++ ":" ++ pyFmt02 (Int.fmod m 60)

def isDigitChar (c : Char) : Bool := '0' ≤ c && c ≤ '9'

def digitsVal (cs : List Char) : Int :=
  cs.foldl (fun a c => a * 10 + (c.toNat - 48 : Int)) 0

/-- Python `int(s)` on a string: strip whitespace, optional sign, a
non-empty digit run; anything else raises (`none`). -/
def pyInt (s : String) : Option Int :=
  match pyStripChars s.data with
  | [] => none
  | '+' :: rest =>
    if rest.isEmpty then none
    else if rest.all isDigitChar then some (digitsVal rest) else none
  | '-' :: rest =>
    if rest.isEmpty then none
    else if rest.all isDigitChar then some (-(digitsVal rest)) else none
  | cs =>
    if cs.all isDigitChar then some (digitsVal cs) else none

/-- The `DAY_MAP` constant: vendor day numbers `1`=Sun … `7`=Sat. -/
def DAY_MAP : List (String × String) :=
  [("1", "Sun"), ("2", "Mon"), ("3", "Tue"), ("4", "Wed"),
   ("5", "Thu"), ("6", "Fri"), ("7", "Sat")]

/-- Embeds `DAY_MAP.get(str(dn), str(dn))`. -/
def dayNameOf (dn : Int) : String :=
  (DAY_MAP.lookup (intStr dn)).getD (intStr dn)

/-- A row of the `courses` table apart from its primary key. -/
structure CourseRow where
  code : Option String
  number : Option String
  title : String
  term_label : Option String
  raw_term : Option String
deriving Repr, DecidableEq

/-- A row of the `selections` table apart from its primary key. -/
structure SelRow where
  course_key : Option String
  variant_va : String
deriving Repr, DecidableEq

/-- A row of the `blocks` table (the autoincrement `id` column is the
list position). -/
structure BlockRow where
  selection_key : Option String
  block_type : Option String
  sec_no : Option String
  room : Option String
  timeblock_id : Option String
  day_num : Int
  day_name : String
  start_min : Int
  end_min : Int
  start_time : String
  end_time : String
deriving Repr, DecidableEq

/-- The SQLite database: `courses` and `selections` are keyed tables
(`TEXT PRIMARY KEY`), `blocks` is append-only with an autoincrement
key. -/
structure DB where
  courses : List (Option String × CourseRow)
  selections : List (Option String × SelRow)
  blocks : List BlockRow
deriving Repr, DecidableEq

/-- Embeds `INSERT OR REPLACE` keyed on a `TEXT PRIMARY KEY` column: a row
whose key equals the new key is replaced; SQLite treats each `NULL`
key as distinct from every key, so a `NULL`-keyed insert never
conflicts and is appended. -/
def upsertRow {ρ : Type} (k : Option String) (r : ρ)
    (t : List (Option String × ρ)) : List (Option String × ρ) :=
  match k with
  | none => t ++ [(none, r)]
  | some s => t.filter (fun p => !(p.1 == some s)) ++ [(some s, r)]

/-- The `blocks` row built for one timeblock of one block; `none` when
one of the `int(...)` conversions raises. -/
def rowOfTb (selKey : Option String) (blk : BlockRec) (tb : TimeblockRec) :
    Option BlockRow := do
  let ds ← tb.day
  let t1s ← tb.t1
  let t2s ← tb.t2
  let dn ← pyInt ds
  let t1 ← pyInt t1s
  let t2 ← pyInt t2s
  some { selection_key := selKey,
         block_type := blk.type,
         sec_no := blk.secNo,
         room := if blk.room == "" then none else some blk.room,
         timeblock_id := tb.tbid,
         day_num := dn,
         day_name := dayNameOf dn,
         start_min := t1,
         end_min := t2,
         start_time := minutes_to_hhmm t1,
         end_time := minutes_to_hhmm t2 }

/-- Run a fallible function over a list, failing on the first failure
(the behaviour of a Python loop whose body may raise). -/
def optMapList {α β : Type} (f : α → Option β) : List α → Option (List β)
  | [] => some []
  | x :: xs =>
    match f x, optMapList f xs with
    | some y, some ys => some (y :: ys)
    | _, _ => none

/-- All `blocks` rows inserted for one selection, in loop order. -/
def blockRowsOfSel (sel : SelectionRec) : Option (List BlockRow) := do
  let rowss ← optMapList
    (fun blk => optMapList (rowOfTb sel.selection_key blk) blk.timeblocks)
    sel.blocks
  some rowss.flatten

/-- Embedding of `save_to_db`: upsert the course row, upsert one
selection row per selection in order, append one `blocks` row per
timeblock of each block of each selection in order.  An `int(...)`
exception escapes before `con.commit()`, rolling the transaction
back, hence `none` with the database unchanged. -/
def save_to_db (course : CourseRec) (sels : List SelectionRec) (db : DB) :
    Option DB := do
  let rowss ← optMapList blockRowsOfSel sels
  some { courses := upsertRow course.course_key
           ⟨course.code, course.number, course.title,
            course.term_label, course.raw_term⟩ db.courses,
         selections := sels.foldl
           (fun t sel => upsertRow sel.selection_key
             ⟨course.course_key, sel.variant_va⟩ t) db.selections,
         blocks := db.blocks ++ rowss.flatten }

/-- The character class `[A-Z&]` of `CODE_LINE_RE`. -/
def isSubjChar (c : Char) : Bool := ('A' ≤ c && c ≤ 'Z') || c == '&'

/-- The character class `[A-Z0-9]` of `CODE_LINE_RE`. -/
def isCatChar (c : Char) : Bool := ('A' ≤ c && c ≤ 'Z') || ('0' ≤ c && c ≤ '9')

/-- The regex word class `[A-Za-z0-9_]`, used for `\b`. -/
def isWordChar (c : Char) : Bool :=
  ('A' ≤ c && c ≤ 'Z') || ('a' ≤ c && c ≤ 'z') || ('0' ≤ c && c ≤ '9') || c == '_'

/-- Embeds `CODE_LINE_RE.match(text)` for the pattern
`^\s*([A-Z&]{2,})\s+(\d[A-Z0-9]{2}\d)\b`: optional leading whitespace,
a maximal run of `[A-Z&]` of length at least two, at least one
whitespace, a digit, two `[A-Z0-9]`, a digit, then a word boundary.
The character classes of neighbouring pieces are disjoint, so the
greedy match is deterministic. -/
def codeMatch (s : String) : Option (String × String) :=
  let cs1 := s.data.dropWhile isSpaceChar
  let subj := cs1.takeWhile isSubjChar
  let r1 := cs1.dropWhile isSubjChar
  if subj.length < 2 then none
  else
    match r1 with
    | [] => none
    | c :: _ =>
      if !isSpaceChar c then none
      else
        match r1.dropWhile isSpaceChar with
        | d1 :: a :: b :: d2 :: rest =>
          if isDigitChar d1 && isCatChar a && isCatChar b && isDigitChar d2
              && (match rest with | [] => true | r :: _ => !isWordChar r) then
            some (⟨subj⟩, ⟨[d1, a, b, d2]⟩)
          else none
        | _ => none

/-- The per-line normalization of `cleandata.py`: the unicode dashes
`–` and `—` become `-`, bullets `•` are removed, the result is
stripped and uppercased.  The replaced patterns are single
characters, so the two `str.replace` calls are one character map and
the bullet removal one filter. -/
def normalizeText (s : String) : String :=
  let dashes := s.data.map (fun c => if c == '–' || c == '—' then '-' else c)
  let noBullet := dashes.filter (fun c => !(c == '•'))
  pyUpper ⟨pyStripChars noBullet⟩

/-- Accumulator of the `cleandata.py` main loop. -/
structure CleanState where
  headerSeen : Bool
  codes : List String
  rejected : List String
deriving Repr, DecidableEq

/-- Embeds `codes.add(c)`: set insertion, modelled as append-if-new. -/
def addCode (c : String) (l : List String) : List String :=
  if c ∈ l then l else l ++ [c]

/-- One iteration of the `cleandata.py` row loop: skip empty rows,
skip the first `COURSE NAME` header row, collect a match into the
code set, otherwise append the normalized text to the reject list. -/
def cleanStep (st : CleanState) (row : List String) : CleanState :=
  match row with
  | [] => st
  | c0 :: _ =>
    let text := normalizeText c0
    if !st.headerSeen && text == "COURSE NAME" then
      { st with headerSeen := true }
    else
      match codeMatch text with
      | some (subj, cat) =>
        { st with codes := addCode (subj ++ " " ++ cat) st.codes }
      | none => { st with rejected := st.rejected ++ [text] }

/-- The whole `cleandata.py` row loop over the CSV rows. -/
def cleanFold (rows : List (List String)) : CleanState :=
  rows.foldl cleanStep ⟨false, [], []⟩

/-- Python string comparison: lexicographic by code point. -/
def charListLe : List Char → List Char → Bool
  | [], _ => true
  | _ :: _, [] => false
  | a :: as, b :: bs => if a < b then true else if b < a then false else charListLe as bs

/-- Python `s1 <= s2` on strings. -/
def pyStrLe (a b : String) : Bool := charListLe a.data b.data

/-- Insert a string into a list sorted by `pyStrLe`. -/
def insertSorted (x : String) : List String → List String
  | [] => [x]
  | y :: ys => if pyStrLe x y then x :: y :: ys else y :: insertSorted x ys

/-- Embeds `sorted(l)` for a list of strings: the sorted permutation, which on
a duplicate-free list is what Python's `sorted` returns. -/
def sortStrings (l : List String) : List String := l.foldr insertSorted []

/-- The `course_codes.txt` contents: `sorted(codes)`, one per line. -/
def codesOut (rows : List (List String)) : List String :=
  sortStrings ((cleanFold rows).codes)

/-- The `rejected_lines.txt` contents, one per line. -/
def rejectsOut (rows : List (List String)) : List String :=
  (cleanFold rows).rejected

/-- Events of the `run()` control flow in `intercept_scrape_ui.py`. -/
inductive Ev where
  | dbWork
  | mkLogDir
  | browserStart
  | gotoCriteria
  | clickTerm
  | attempt (subj num : String)
  | snapshot (subj num : String)
  | writeXml (subj num : String)
  | dbSave (subj num : String)
  | removeAll
  | summary
deriving Repr, DecidableEq

/-- Outcome of `try_add_course` for one pair, as seen by the `run()`
loop: an unexpected exception, status `saved` with a payload (parsed
to a tree, or `none` when `ET.fromstring` raises on it), status
`saved` with an empty payload, or one of the three skip statuses. -/
inductive Outcome where
  | raised
  | savedPayload (doc : Option Xml)
  | savedEmptyPayload
  | skipNotFound
  | skipWrongTerm
  | noOption

/-- The row lists `save_to_db` computes before touching any table;
`none` when an `int(...)` conversion raises. -/
def saveRowsOk (sels : List SelectionRec) : Option (List (List BlockRow)) :=
  optMapList blockRowsOfSel sels

/-- The events one iteration of the `run()` loop produces for one
`(subj, num)` pair.  The `try` around `parse_addcourse_xml` and
`save_to_db` catches any exception (a `none` from either), snapshots
and counts the pair failed; every branch, the exception handler
included, ends by clearing the UI (`remove_all_courses`). -/
def pairSeg (subj num : String) (o : Outcome) : List Ev :=
  Ev.attempt subj num ::
  match o with
  | .raised => [Ev.snapshot subj num, Ev.removeAll]
  | .savedPayload none =>
    [Ev.writeXml subj num, Ev.snapshot subj num, Ev.removeAll]
  | .savedPayload (some doc) =>
    Ev.writeXml subj num ::
    (match parse_addcourse_xml doc with
     | .error _ => [Ev.snapshot subj num, Ev.removeAll]
     | .ok (_, sels) =>
       if sels.isEmpty then [Ev.removeAll]
       else
         match saveRowsOk sels with
         | none => [Ev.snapshot subj num, Ev.removeAll]
         | some _ => [Ev.dbSave subj num, Ev.removeAll])
  | .savedEmptyPayload => [Ev.removeAll]
  | .skipNotFound => [Ev.removeAll]
  | .skipWrongTerm => [Ev.removeAll]
  | .noOption => [Ev.removeAll]

/-- The events `run()` emits before the input-file check: `ensure_db()`
then `LOG_DIR.mkdir`. -/
def runHeader : List Ev := [Ev.dbWork, Ev.mkLogDir]

/-- Embedding of the `run()` control flow: database schema creation and
log-directory creation happen first; a missing `course_codes.txt`
then aborts the run; otherwise the browser starts, the term is
selected, and every pair is processed in order. -/
def runTrace (fileExists : Bool) (items : List (String × String × Outcome)) :
    List Ev :=
  runHeader ++
  if !fileExists then []
  else
    [Ev.browserStart, Ev.gotoCriteria, Ev.clickTerm] ++
    (items.flatMap (fun it => pairSeg it.1 it.2.1 it.2.2)) ++ [Ev.summary]

/-- The normalized first-column texts of the CSV rows (empty rows
contribute nothing), in order. -/
def normTexts (rows : List (List String)) : List String :=
  rows.filterMap (fun r => r.head?.map normalizeText)

/-- Drop the first occurrence of the `COURSE NAME` header. -/
def dropFirstHeader : List String → List String
  | [] => []
  | t :: ts => if t == "COURSE NAME" then ts else t :: dropFirstHeader ts

/-- The `SUBJECT NUMBER` strings of the matching processed lines, in
order of first appearance of the lines. -/
def matchedCodes (rows : List (List String)) : List String :=
  (dropFirstHeader (normTexts rows)).filterMap
    (fun t => (codeMatch t).map (fun pr => pr.1 ++ " " ++ pr.2))

/-- A table row whose key conflicts with no selection of `sels` (a
`none` selection key never conflicts). -/
def notKeyed (sels : List SelectionRec) (p : Option String × SelRow) : Bool :=
  sels.all (fun s => match s.selection_key with
    | some k => !(p.1 == some k)
    | none => true)

/-- The selection-upsert loop of `save_to_db`, from an arbitrary
starting table. -/
def upsertSels (rowf : SelectionRec → SelRow) (sels : List SelectionRec)
    (t : List (Option String × SelRow)) : List (Option String × SelRow) :=
  sels.foldl (fun acc sel => upsertRow sel.selection_key (rowf sel) acc) t

def isUpperChar (c : Char) : Bool := 'A' ≤ c && c ≤ 'Z'

def isAlnumChar (c : Char) : Bool :=
  ('A' ≤ c && c ≤ 'Z') || ('a' ≤ c && c ≤ 'z') || ('0' ≤ c && c ≤ '9')

/-- Modelled from the spec: the building/room split of a block's
free-text `location` attribute is performed by the API-replay
timetable client, which is absent from the sources (the UI-driven
client in `intercept_scrape_ui.py` stores the raw location string
unsplit).  The spec gives the fixed pattern `CAPS-code SPACE
alnum-code`: a non-empty run of uppercase letters, one space, a
non-empty alphanumeric run splits into `(building, room)`; any other
string yields `(None, None)`. -/
def split_location (s : String) : Option String × Option String :=
  let caps := s.data.takeWhile isUpperChar
  match s.data.dropWhile isUpperChar with
  | ' ' :: tail =>
    if caps.isEmpty then (none, none)
    else if tail.isEmpty then (none, none)
    else if tail.all isAlnumChar then (some ⟨caps⟩, some ⟨tail⟩)
    else (none, none)
  | _ => (none, none)

/-- A response with a `course` element but no `classdata` element. -/
def docCourseOnly : Xml :=
  .elem "addcourse" [] none (xf [ .elem "course" [("key", "K")] none .nil ])

/-- A response with neither `course` nor `classdata`, carrying an
`errors` node with a text and a nested `error` element. -/
def docNoCourse : Xml :=
  .elem "addcourse" [] none (xf
    [ .elem "errors" [] (some "  boom  ") (xf
        [ .elem "error" [] (some "deep") .nil ]) ])

/-- The single `uselection` element of `docUselNoSel`: it has no
`selection` child. -/
def uselEmpty : Xml := .elem "uselection" [] none .nil

/-- The `course` element of `docUselNoSel`. -/
def courseUselNoSel : Xml :=
  .elem "course" [("key", "K1"), ("code", "MATH"), ("number", "1ZB3")] none
    (xf [ uselEmpty ])

/-- An accepted response whose course has exactly one `uselection`,
which lacks a `selection` child. -/
def docUselNoSel : Xml :=
  .elem "addcourse" [] none (xf
    [ .elem "classdata" [] none .nil, courseUselNoSel ])

/-- The `timeblock` elements of `uselFull`. -/
def tbsFull : List Xml :=
  [ .elem "timeblock" [("id", "10"), ("day", "2"), ("t1", "540"), ("t2", "590")] none .nil,
    .elem "timeblock" [("id", "11"), ("day", "4"), ("t1", "540"), ("t2", "590")] none .nil ]

/-- A `block` element whose `timeblockids` names one unresolvable id. -/
def blockElFull : Xml :=
  .elem "block"
    [("type", "LEC"), ("secNo", "C01"), ("location", "BSB 147"),
     ("timeblockids", "10,11,99")] none .nil

/-- The `selection` element of `uselFull`. -/
def selElFull : Xml :=
  .elem "selection" [("key", "S1"), ("va", "A")] none (xf [ blockElFull ])

/-- A `uselection` with one selection, one block, two timeblocks. -/
def uselFull : Xml :=
  .elem "uselection" [] none (xf (selElFull :: tbsFull))

/-- The `course` element of `docFull`: one full `uselection` and one
without a `selection` child. -/
def courseFull : Xml :=
  .elem "course"
    [("key", "K1"), ("code", "MATH"), ("number", "1ZB3"), ("title", "Calc")] none
    (xf [ uselFull, uselEmpty ])

/-- A fully populated accepted response. -/
def docFull : Xml :=
  .elem "addcourse" [] none (xf
    [ .elem "classdata" [] none (xf
        [ .elem "term" [("v", "Fall 2024"), ("n", "3202410")] none .nil ]),
      courseFull ])

/-- The course record `parse_addcourse_xml` yields for `docFull`. -/
def courseRecFull : CourseRec :=
  ⟨some "K1", some "MATH", some "1ZB3", "Calc", some "Fall 2024", some "3202410"⟩

/-- The timeblock records of the one selection of `docFull`. -/
def tbRecsFull : List TimeblockRec :=
  [⟨some "10", some "2", some "540", some "590"⟩,
   ⟨some "11", some "4", some "540", some "590"⟩]

/-- The selection records `parse_addcourse_xml` yields for `docFull`. -/
def selsRecFull : List SelectionRec :=
  [⟨some "S1", "A", [⟨some "LEC", some "C01", "BSB 147", tbRecsFull⟩]⟩]

/-- The database state after saving `docFull`'s records into an empty
database. -/
def db1Full : DB :=
  { courses := [(some "K1",
      ⟨some "MATH", some "1ZB3", "Calc", some "Fall 2024", some "3202410"⟩)],
    selections := [(some "S1", ⟨some "K1", "A"⟩)],
    blocks :=
      [⟨some "S1", some "LEC", some "C01", some "BSB 147", some "10",
        2, "Mon", 540, 590, "09:00", "09:50"⟩,
       ⟨some "S1", some "LEC", some "C01", some "BSB 147", some "11",
        4, "Wed", 540, 590, "09:00", "09:50"⟩] }

/-- A timeblock whose `day` attribute parses to `10`, outside 1-7. -/
def tbDayTen : TimeblockRec := ⟨some "T", some "10", some "0", some "60"⟩

/-!
Theorems.
-/

/-- C8: the location splitter maps `"BSB 147"` to building `"BSB"` and
room `"147"`, and an unmatched string such as the empty string to
`(None, None)`. -/
theorem split_location_fixed_pattern :
    split_location "BSB 147" = (some "BSB", some "147") ∧
    split_location "" = (none, none) := by decide

/-- C4 counterexample: with the course-codes file missing the run does
abort, but the database work (`ensure_db`) has already been performed
by then - the aborted trace is exactly `ensure_db` followed by the
log-directory creation. -/
theorem db_work_precedes_missing_file_abort :
    Ev.dbWork ∈ runTrace false [] ∧
    runTrace false [] = [Ev.dbWork, Ev.mkLogDir] := by decide

/-- C4 (amended): a missing course-codes file aborts the run before
any browser work or pair attempt, though after the database schema
has been ensured; and no failing pair is fatal to the run: whatever
the outcomes, every pair of the input list is attempted. -/
theorem missing_file_abort_and_fault_isolation
    (items : List (String × String × Outcome)) :
    runTrace false items = [Ev.dbWork, Ev.mkLogDir] ∧
    Ev.browserStart ∉ runTrace false items ∧
    (∀ s n, Ev.attempt s n ∉ runTrace false items) ∧
    (∀ it ∈ items, Ev.attempt it.1 it.2.1 ∈ runTrace true items) := by
  have h0 : runTrace false items = [Ev.dbWork, Ev.mkLogDir] := rfl
  refine ⟨h0, ?_, ?_, ?_⟩
  · rw [h0]; decide
  · intro s n
    rw [h0]
    simp
  · intro it hit
    have hhead : Ev.attempt it.1 it.2.1 ∈ pairSeg it.1 it.2.1 it.2.2 := by
      unfold pairSeg
      exact List.mem_cons_self _ _
    have hflat : Ev.attempt it.1 it.2.1 ∈
        items.flatMap (fun it => pairSeg it.1 it.2.1 it.2.2) :=
      List.mem_flatMap.mpr ⟨it, hit, hhead⟩
    simp [runTrace, runHeader, List.mem_append, hflat]

/-- Closed instance of `missing_file_abort_and_fault_isolation`. -/
theorem missing_file_abort_and_fault_isolation_witness :
    runTrace false [("MATH", "1ZB3", Outcome.noOption)] = [Ev.dbWork, Ev.mkLogDir] ∧
    Ev.attempt "MATH" "1ZB3" ∈ runTrace true [("MATH", "1ZB3", Outcome.noOption)] :=
  ⟨(missing_file_abort_and_fault_isolation [("MATH", "1ZB3", Outcome.noOption)]).1,
   (missing_file_abort_and_fault_isolation [("MATH", "1ZB3", Outcome.noOption)]).2.2.2
     ("MATH", "1ZB3", Outcome.noOption) (List.mem_singleton.mpr rfl)⟩

/-- C5: the `run()` trace is the header followed by the per-pair
segments in input order, and every per-pair segment - whatever the
outcome, the exception handler included - starts with the pair's
attempt and ends with `remove_all_courses`, so all added course
selections are removed before the next pair is attempted. -/
theorem ui_cleared_after_every_pair
    (items : List (String × String × Outcome)) (s n : String) (o : Outcome) :
    runTrace true items =
      runHeader ++ [Ev.browserStart, Ev.gotoCriteria, Ev.clickTerm] ++
        (items.flatMap (fun it => pairSeg it.1 it.2.1 it.2.2)) ++ [Ev.summary] ∧
    ∃ mid, pairSeg s n o = Ev.attempt s n :: (mid ++ [Ev.removeAll]) := by
  refine ⟨by simp [runTrace, runHeader], ?_⟩
  cases o with
  | raised => exact ⟨[Ev.snapshot s n], rfl⟩
  | savedEmptyPayload => exact ⟨[], rfl⟩
  | skipNotFound => exact ⟨[], rfl⟩
  | skipWrongTerm => exact ⟨[], rfl⟩
  | noOption => exact ⟨[], rfl⟩
  | savedPayload doc =>
    cases doc with
    | none => exact ⟨[Ev.writeXml s n, Ev.snapshot s n], rfl⟩
    | some x =>
      rcases hp : parse_addcourse_xml x with e | pr
      · exact ⟨[Ev.writeXml s n, Ev.snapshot s n], by simp [pairSeg, hp]⟩
      · rcases pr with ⟨c, sels⟩
        rcases sels with _ | ⟨s0, srest⟩
        · exact ⟨[Ev.writeXml s n], by simp [pairSeg, hp]⟩
        · rcases hm : saveRowsOk (s0 :: srest) with _ | rows
          · exact ⟨[Ev.writeXml s n, Ev.snapshot s n], by simp [pairSeg, hp, hm]⟩
          · exact ⟨[Ev.writeXml s n, Ev.dbSave s n], by simp [pairSeg, hp, hm]⟩

/-- C1 counterexample: a document with a `course` element but no
`classdata` element raises a parse error even though it does not lack
both elements. -/
theorem parse_raises_with_course_present :
    (parse_addcourse_xml docCourseOnly).isOk = false ∧
    (findDesc docCourseOnly "course").isSome = true := by decide

/-- C1 (amended): the normalizer fails exactly when the `course`
element or the `classdata` element is missing (either one suffices),
and the failure message is the fixed text around the joined `errors`
texts - around the empty string when no `errors` node is present. -/
theorem parse_error_iff (doc : Xml) :
    ((parse_addcourse_xml doc).isOk = false ↔
      findDesc doc "course" = none ∨ findDesc doc "classdata" = none) ∧
    (∀ msg, parse_addcourse_xml doc = .error msg →
      msg = "No <classdata>/<course>. errors='" ++ errMsgOf doc ++ "'") ∧
    (findDesc doc "errors" = none → errMsgOf doc = "") := by
  refine ⟨?_, ?_, ?_⟩
  · unfold parse_addcourse_xml
    rcases h1 : findDesc doc "course" with _ | ce <;>
      rcases h2 : findDesc doc "classdata" with _ | cd <;>
        simp [Except.isOk, Except.toBool]
  · intro msg h
    unfold parse_addcourse_xml at h
    rcases h1 : findDesc doc "course" with _ | ce <;>
      rcases h2 : findDesc doc "classdata" with _ | cd <;>
        rw [h1, h2] at h <;> simp_all
  · intro h
    unfold errMsgOf
    rw [h]

/-- Closed instance of `parse_error_iff` at `docNoCourse`. -/
theorem parse_error_iff_witness :
    (parse_addcourse_xml docNoCourse).isOk = false ∧
    "No <classdata>/<course>. errors='boom | deep'" =
      "No <classdata>/<course>. errors='" ++ errMsgOf docNoCourse ++ "'" :=
  ⟨(parse_error_iff docNoCourse).1.mpr (Or.inl (by rfl)),
   (parse_error_iff docNoCourse).2.1 _ (by rfl)⟩

theorem length_filterMap_eq {α β : Type} (f : α → Option β) (l : List α) :
    (l.filterMap f).length = (l.filter (fun x => (f x).isSome)).length := by
  induction l with
  | nil => rfl
  | cons x xs ih =>
    cases hx : f x <;> simp [List.filterMap_cons, hx, List.filter_cons, ih]

theorem mkSel_isSome (u : Xml) :
    (mkSel u).isSome = (findChild u "selection").isSome := by
  unfold mkSel
  rcases findChild u "selection" with _ | se <;> simp

/-- C2 counterexample: `docUselNoSel` carries one `uselection` under
its `course` element, yet the normalizer accepts it with zero
selection records, because that `uselection` has no `selection`
child. -/
theorem uselection_without_selection_dropped :
    findDesc docUselNoSel "course" = some courseUselNoSel ∧
    (childrenTagged courseUselNoSel "uselection").length = 1 ∧
    (parse_addcourse_xml docUselNoSel).toOption.map (fun pr => pr.2.length) =
      some 0 :=
  ⟨rfl, rfl, rfl⟩

/-- C2 (amended): on any accepted document the normalizer returns
exactly one selection record per `uselection` that has a `selection`
child; a `uselection` without one contributes nothing. -/
theorem selections_count_matches_uselections
    (doc : Xml) (c : CourseRec) (sels : List SelectionRec)
    (h : parse_addcourse_xml doc = .ok (c, sels)) :
    ∃ ce, findDesc doc "course" = some ce ∧
      sels.length = ((childrenTagged ce "uselection").filter
        (fun u => (findChild u "selection").isSome)).length := by
  unfold parse_addcourse_xml at h
  rcases h1 : findDesc doc "course" with _ | ce <;> rw [h1] at h
  · rcases h2 : findDesc doc "classdata" with _ | cd <;> rw [h2] at h <;>
      exact absurd h (by simp)
  · rcases h2 : findDesc doc "classdata" with _ | cd <;> rw [h2] at h
    · exact absurd h (by simp)
    · have hsels : (childrenTagged ce "uselection").filterMap mkSel = sels := by
        injection h with h'
        exact congrArg Prod.snd h'
      refine ⟨ce, rfl, ?_⟩
      rw [← hsels, length_filterMap_eq]
      congr 1
      exact List.filter_congr (fun u _ => mkSel_isSome u)

/-- Closed instance of `selections_count_matches_uselections`. -/
theorem selections_count_matches_uselections_witness :
    ∃ ce, findDesc docFull "course" = some ce ∧
      selsRecFull.length = ((childrenTagged ce "uselection").filter
        (fun u => (findChild u "selection").isSome)).length :=
  selections_count_matches_uselections docFull courseRecFull selsRecFull (by rfl)

theorem filter_map_eq_filterMap_tbFind (tbs : List Xml) (ids : List String) :
    (ids.filter (fun i => tbMem tbs i)).map (fun i => (tbFind tbs i).getD default)
      = ids.filterMap (tbFind tbs) := by
  simp only [tbMem]
  induction ids with
  | nil => rfl
  | cons i is ih =>
    rcases hi : tbFind tbs i with _ | v <;>
      simp [List.filter_cons, List.filterMap_cons, hi, ih]

/-- C6: every block record of an accepted document is built by
`mkBlock` from its `block` element and the enclosing `uselection`'s
timeblocks, and `mkBlock` resolves the comma-split `timeblockids`
attribute to exactly the resolvable ids, in order, dropping
unresolvable ids without error (`filterMap` of the lookup). -/
theorem block_timeblocks_resolvable
    (doc : Xml) (c : CourseRec) (sels : List SelectionRec)
    (h : parse_addcourse_xml doc = .ok (c, sels)) :
    (∀ tbs be, (mkBlock tbs be).timeblocks =
      (pySplitComma ((be.get "timeblockids").getD "")).filterMap (tbFind tbs)) ∧
    ∀ sel ∈ sels, ∃ u se, findChild u "selection" = some se ∧
      sel.blocks = (childrenTagged se "block").map
        (mkBlock (childrenTagged u "timeblock")) := by
  constructor
  · intro tbs be
    unfold mkBlock
    exact filter_map_eq_filterMap_tbFind tbs _
  · intro sel hsel
    unfold parse_addcourse_xml at h
    rcases h1 : findDesc doc "course" with _ | ce <;> rw [h1] at h
    · rcases h2 : findDesc doc "classdata" with _ | cd <;> rw [h2] at h <;>
        exact absurd h (by simp)
    · rcases h2 : findDesc doc "classdata" with _ | cd <;> rw [h2] at h
      · exact absurd h (by simp)
      · have hsels : (childrenTagged ce "uselection").filterMap mkSel = sels := by
          injection h with h'
          exact congrArg Prod.snd h'
        rw [← hsels] at hsel
        obtain ⟨u, hu, hmk⟩ := List.mem_filterMap.mp hsel
        unfold mkSel at hmk
        rcases hse : findChild u "selection" with _ | se <;> rw [hse] at hmk
        · exact absurd hmk (by simp)
        · refine ⟨u, se, hse, ?_⟩
          have := Option.some.inj hmk
          rw [← this]

/-- Closed instance of `block_timeblocks_resolvable` at the block of
`docFull`, whose `timeblockids` lists the unresolvable id `99`. -/
theorem block_timeblocks_resolvable_witness :
    (mkBlock tbsFull blockElFull).timeblocks =
      (pySplitComma ((blockElFull.get "timeblockids").getD "")).filterMap
        (tbFind tbsFull) :=
  (block_timeblocks_resolvable docFull courseRecFull selsRecFull (by rfl)).1
    tbsFull blockElFull

theorem notKeyed_cons (s : SelectionRec) (L : List SelectionRec)
    (p : Option String × SelRow) :
    notKeyed (s :: L) p =
      ((match s.selection_key with
        | some k => !(p.1 == some k)
        | none => true) && notKeyed L p) := by
  simp [notKeyed, List.all_cons]

theorem upsertSels_cons (rowf : SelectionRec → SelRow) (s : SelectionRec)
    (L : List SelectionRec) (t : List (Option String × SelRow)) :
    upsertSels rowf (s :: L) t =
      upsertSels rowf L (upsertRow s.selection_key (rowf s) t) := rfl

theorem upsertSels_split (rowf : SelectionRec → SelRow) (sels : List SelectionRec) :
    ∀ t, upsertSels rowf sels t =
      t.filter (notKeyed sels) ++ upsertSels rowf sels [] := by
  induction sels with
  | nil =>
    intro t
    show t = List.filter (notKeyed []) t ++ []
    rw [List.append_nil]
    symm
    apply List.filter_eq_self.mpr
    intro p _
    rfl
  | cons s L ih =>
    intro t
    rw [upsertSels_cons, ih (upsertRow s.selection_key (rowf s) t),
        upsertSels_cons rowf s L [], ih (upsertRow s.selection_key (rowf s) []),
        ← List.append_assoc]
    congr 1
    rcases hk : s.selection_key with _ | k
    · simp only [upsertRow, List.filter_append]
      congr 1
      apply List.filter_congr
      intro p _
      rw [notKeyed_cons, hk]
      simp
    · simp only [upsertRow, List.filter_append, List.filter_filter]
      congr 1
      apply List.filter_congr
      intro p _
      rw [notKeyed_cons, hk]
      exact Bool.and_comm _ _

theorem mem_upsertSels_nil (rowf : SelectionRec → SelRow) (sels : List SelectionRec) :
    ∀ p ∈ upsertSels rowf sels [], ∃ s, s ∈ sels ∧ p.1 = s.selection_key := by
  induction sels with
  | nil =>
    intro p hp
    simp [upsertSels] at hp
  | cons s L ih =>
    intro p hp
    rw [upsertSels_cons, upsertSels_split rowf L] at hp
    rcases List.mem_append.mp hp with h1 | h2
    · have h1' := (List.mem_filter.mp h1).1
      rcases hk : s.selection_key with _ | k <;> rw [hk] at h1' <;>
        simp [upsertRow] at h1'
      · exact ⟨s, List.mem_cons_self s L, by rw [h1', hk]⟩
      · exact ⟨s, List.mem_cons_self s L, by rw [h1', hk]⟩
    · obtain ⟨s', hs', hps⟩ := ih p h2
      exact ⟨s', List.mem_cons_of_mem s hs', hps⟩

theorem notKeyed_false_of_mem (rowf : SelectionRec → SelRow)
    (sels : List SelectionRec) (hk : ∀ s ∈ sels, s.selection_key.isSome) :
    ∀ p ∈ upsertSels rowf sels [], notKeyed sels p = false := by
  intro p hp
  obtain ⟨s, hs, hps⟩ := mem_upsertSels_nil rowf sels p hp
  rcases hks : s.selection_key with _ | k
  · exact absurd (hk s hs) (by rw [hks]; simp)
  · unfold notKeyed
    apply List.all_eq_false.mpr
    refine ⟨s, hs, ?_⟩
    rw [hks]
    simp [hps, hks]

theorem upsertSels_idem (rowf : SelectionRec → SelRow) (sels : List SelectionRec)
    (t : List (Option String × SelRow))
    (hk : ∀ s ∈ sels, s.selection_key.isSome) :
    upsertSels rowf sels (upsertSels rowf sels t) = upsertSels rowf sels t := by
  conv_lhs => rw [upsertSels_split rowf sels (upsertSels rowf sels t)]
  conv_lhs => rw [upsertSels_split rowf sels t]
  conv_rhs => rw [upsertSels_split rowf sels t]
  rw [List.filter_append]
  have h1 : (t.filter (notKeyed sels)).filter (notKeyed sels)
      = t.filter (notKeyed sels) := by
    rw [List.filter_filter]
    apply List.filter_congr
    intro a _
    simp
  have h2 : (upsertSels rowf sels []).filter (notKeyed sels) = [] := by
    rw [List.filter_eq_nil_iff]
    intro p hp
    rw [notKeyed_false_of_mem rowf sels hk p hp]
    simp
  rw [h1, h2, List.append_nil]

theorem upsertRow_idem {ρ : Type} (k : String) (r : ρ)
    (t : List (Option String × ρ)) :
    upsertRow (some k) r (upsertRow (some k) r t) = upsertRow (some k) r t := by
  simp only [upsertRow, List.filter_append, List.filter_filter]
  simp

/-- C3: re-running `save_to_db` on the same `(course, selections)`
value leaves the `courses` and `selections` tables unchanged
(`INSERT OR REPLACE` on the primary keys, which vendor data always
populates), while the `blocks` table receives the same block rows a
second time (append-only insert). -/
theorem save_to_db_rerun (c : CourseRec) (sels : List SelectionRec) (db db1 : DB)
    (hck : c.course_key.isSome)
    (hsk : ∀ s ∈ sels, s.selection_key.isSome)
    (h : save_to_db c sels db = some db1) :
    ∃ db2 rows, save_to_db c sels db1 = some db2 ∧
      db2.courses = db1.courses ∧
      db2.selections = db1.selections ∧
      db1.blocks = db.blocks ++ rows ∧
      db2.blocks = db1.blocks ++ rows := by
  rcases hck' : c.course_key with _ | ck
  · rw [hck'] at hck
    exact absurd hck (by simp)
  · unfold save_to_db at h ⊢
    rcases hr : optMapList blockRowsOfSel sels with _ | rowss <;> rw [hr] at h
    · exact absurd h (by simp)
    · have hdb1 := Option.some.inj h
      refine ⟨_, rowss.flatten, rfl, ?_, ?_, ?_, ?_⟩
      · rw [← hdb1]
        show upsertRow c.course_key _
            (upsertRow c.course_key _ db.courses) = _
        rw [hck']
        exact upsertRow_idem ck _ db.courses
      · rw [← hdb1]
        exact upsertSels_idem (fun sel => ⟨c.course_key, sel.variant_va⟩)
          sels db.selections hsk
      · rw [← hdb1]
      · rw [← hdb1]

/-- Closed instance of `save_to_db_rerun` for `docFull`'s records. -/
theorem save_to_db_rerun_witness :
    ∃ db2 rows, save_to_db courseRecFull selsRecFull db1Full = some db2 ∧
      db2.courses = db1Full.courses ∧
      db2.selections = db1Full.selections ∧
      db1Full.blocks = (⟨[], [], []⟩ : DB).blocks ++ rows ∧
      db2.blocks = db1Full.blocks ++ rows :=
  save_to_db_rerun courseRecFull selsRecFull ⟨[], [], []⟩ db1Full
    (by decide) (by decide) (by decide)

theorem optMapList_length {α β : Type} (f : α → Option β) :
    ∀ (l : List α) (r : List β), optMapList f l = some r → r.length = l.length := by
  intro l
  induction l with
  | nil =>
    intro r h
    simp [optMapList] at h
    rw [h]
    simp
  | cons x xs ih =>
    intro r h
    unfold optMapList at h
    rcases hx : f x with _ | y <;> rw [hx] at h
    · exact absurd h (by simp)
    · rcases hxs : optMapList f xs with _ | ys <;> rw [hxs] at h
      · exact absurd h (by simp)
      · rw [← Option.some.inj h]
        simp [ih ys hxs]

theorem optMapList_flatten_length {α β : Type} (g : α → Option (List β))
    (len : α → Nat) (hlen : ∀ a bs, g a = some bs → bs.length = len a) :
    ∀ (l : List α) (bss : List (List β)), optMapList g l = some bss →
      bss.flatten.length = (l.map len).sum := by
  intro l
  induction l with
  | nil =>
    intro bss h
    simp [optMapList] at h
    rw [h]
    simp
  | cons x xs ih =>
    intro bss h
    unfold optMapList at h
    rcases hx : g x with _ | bs <;> rw [hx] at h
    · exact absurd h (by simp)
    · rcases hxs : optMapList g xs with _ | bss' <;> rw [hxs] at h
      · exact absurd h (by simp)
      · rw [← Option.some.inj h]
        simp [List.map_cons, hlen x bs hx, ih bss' hxs]

theorem blockRowsOfSel_length (s : SelectionRec) (rs : List BlockRow)
    (h : blockRowsOfSel s = some rs) :
    rs.length = (s.blocks.map (fun b => b.timeblocks.length)).sum := by
  unfold blockRowsOfSel at h
  rcases hb : optMapList
      (fun blk => optMapList (rowOfTb s.selection_key blk) blk.timeblocks)
      s.blocks with _ | rowss <;> rw [hb] at h
  · exact absurd h (by simp)
  · have hrs : rs = rowss.flatten := (Option.some.inj h).symm
    rw [hrs]
    exact optMapList_flatten_length _ _
      (fun blk bs hbs => optMapList_length _ blk.timeblocks bs hbs)
      s.blocks rowss hb

/-- C10: a successful `save_to_db` appends exactly one `blocks` row
per timeblock of each block of each selection - the appended row
count is the total timeblock count - and a block all of whose split
`timeblockids` are unresolvable gets an empty `timeblocks` list from
the normalizer, hence zero rows and silent absence from the store. -/
theorem one_block_row_per_timeblock (c : CourseRec) (sels : List SelectionRec)
    (db db1 : DB) (h : save_to_db c sels db = some db1) :
    (∃ rows, db1.blocks = db.blocks ++ rows ∧
      rows.length = (sels.map (fun s =>
        (s.blocks.map (fun b => b.timeblocks.length)).sum)).sum) ∧
    ∀ tbs be, ((pySplitComma ((be.get "timeblockids").getD "")).all
        (fun i => !(tbMem tbs i))) = true →
      (mkBlock tbs be).timeblocks = [] := by
  constructor
  · unfold save_to_db at h
    rcases hr : optMapList blockRowsOfSel sels with _ | rowss <;> rw [hr] at h
    · exact absurd h (by simp)
    · refine ⟨rowss.flatten, ?_, ?_⟩
      · rw [← Option.some.inj h]
      · exact optMapList_flatten_length blockRowsOfSel _
          (fun s rs hs => blockRowsOfSel_length s rs hs) sels rowss hr
  · intro tbs be hall
    have hfil : (pySplitComma ((be.get "timeblockids").getD "")).filter
        (fun i => tbMem tbs i) = [] := by
      rw [List.filter_eq_nil_iff]
      intro i hi
      have := List.all_eq_true.mp hall i hi
      simp at this
      simp [this]
    unfold mkBlock
    simp [hfil]

/-- Closed instance of `one_block_row_per_timeblock`: two rows for the
two resolvable timeblocks of `docFull`, and the same block against an
empty timeblock list yields no timeblocks. -/
theorem one_block_row_per_timeblock_witness :
    (∃ rows, db1Full.blocks = (⟨[], [], []⟩ : DB).blocks ++ rows ∧
      rows.length = (selsRecFull.map (fun s =>
        (s.blocks.map (fun b => b.timeblocks.length)).sum)).sum) ∧
    (mkBlock [] blockElFull).timeblocks = [] :=
  ⟨(one_block_row_per_timeblock courseRecFull selsRecFull ⟨[], [], []⟩ db1Full
      (by decide)).1,
   (one_block_row_per_timeblock courseRecFull selsRecFull ⟨[], [], []⟩ db1Full
      (by decide)).2 [] blockElFull (by decide)⟩

theorem natDigitsF_ne_nil (f n : Nat) : natDigitsF f n ≠ [] := by
  intro h
  rcases f with _ | g
  · simp [natDigitsF] at h
  · by_cases hn : n < 10 <;> simp [natDigitsF, hn] at h

theorem natDigits_singleton (n : Nat) (c : Char) (h : natDigits n = [c]) :
    n < 10 ∧ c = digitChar n := by
  unfold natDigits at h
  by_cases hn : n < 10
  · refine ⟨hn, ?_⟩
    rcases n with _ | m
    · simp [natDigitsF] at h
      exact h.symm
    · simp [natDigitsF, hn] at h
      exact h.symm
  · exfalso
    rcases n with _ | m
    · exact hn (by omega)
    · rw [show natDigitsF (m + 1) (m + 1)
          = natDigitsF m ((m + 1) / 10) ++ [digitChar ((m + 1) % 10)] from by
        simp [natDigitsF, hn]] at h
      rcases hx : natDigitsF m ((m + 1) / 10) with _ | ⟨a, as⟩
      · exact natDigitsF_ne_nil m _ hx
      · rw [hx] at h
        simp at h

theorem digitChar_toNat (n : Nat) (h : n < 10) : (digitChar n).toNat = 48 + n := by
  interval_cases n <;> decide

theorem intStr_eq_digit_imp (d : Int) (k : Nat) (hk : k < 10)
    (h : intStr d = ⟨[digitChar k]⟩) : d = k := by
  unfold intStr at h
  by_cases hd : d < 0
  · rw [if_pos hd] at h
    exfalso
    have hdata := congrArg String.data h
    rw [String.data_append] at hdata
    have hhead : '-' = digitChar k := by
      have : ('-' :: (natStr d.natAbs).data) = [digitChar k] := hdata
      exact (List.cons.inj this).1
    have := congrArg Char.toNat hhead
    rw [digitChar_toNat k hk] at this
    simp at this
    omega
  · rw [if_neg hd] at h
    have hdig : natDigits d.toNat = [digitChar k] := congrArg String.data h
    obtain ⟨hlt, hc⟩ := natDigits_singleton _ _ hdig
    have := congrArg Char.toNat hc
    rw [digitChar_toNat _ hlt, digitChar_toNat k hk] at this
    omega

theorem dayNameOf_out_of_range (d : Int) (hd : d < 1 ∨ 7 < d) :
    dayNameOf d = intStr d := by
  have hne : ∀ k : Nat, k < 10 → (d : Int) ≠ k → intStr d ≠ ⟨[digitChar k]⟩ :=
    fun k hk hdk h => hdk (intStr_eq_digit_imp d k hk h)
  have n1 : (intStr d == "1") = false := by
    rw [show ("1" : String) = ⟨[digitChar 1]⟩ from by decide]
    exact beq_eq_false_iff_ne.mpr (hne 1 (by omega) (by omega))
  have n2 : (intStr d == "2") = false := by
    rw [show ("2" : String) = ⟨[digitChar 2]⟩ from by decide]
    exact beq_eq_false_iff_ne.mpr (hne 2 (by omega) (by omega))
  have n3 : (intStr d == "3") = false := by
    rw [show ("3" : String) = ⟨[digitChar 3]⟩ from by decide]
    exact beq_eq_false_iff_ne.mpr (hne 3 (by omega) (by omega))
  have n4 : (intStr d == "4") = false := by
    rw [show ("4" : String) = ⟨[digitChar 4]⟩ from by decide]
    exact beq_eq_false_iff_ne.mpr (hne 4 (by omega) (by omega))
  have n5 : (intStr d == "5") = false := by
    rw [show ("5" : String) = ⟨[digitChar 5]⟩ from by decide]
    exact beq_eq_false_iff_ne.mpr (hne 5 (by omega) (by omega))
  have n6 : (intStr d == "6") = false := by
    rw [show ("6" : String) = ⟨[digitChar 6]⟩ from by decide]
    exact beq_eq_false_iff_ne.mpr (hne 6 (by omega) (by omega))
  have n7 : (intStr d == "7") = false := by
    rw [show ("7" : String) = ⟨[digitChar 7]⟩ from by decide]
    exact beq_eq_false_iff_ne.mpr (hne 7 (by omega) (by omega))
  unfold dayNameOf DAY_MAP
  simp [List.lookup, n1, n2, n3, n4, n5, n6, n7]

/-- C9: the `blocks` row built for a timeblock whose `day` attribute
parses to an integer `d` is inserted without error whenever the time
attributes parse too; its `day_name` is the decimal string of `d`
when `d` is outside 1-7, and Sun, Mon, Tue, Wed, Thu, Fri, Sat for
`d` equal to 1 through 7. -/
theorem inserted_day_name (sk : Option String) (blk : BlockRec)
    (tb : TimeblockRec) (d : Int)
    (hd : tb.day.bind pyInt = some d)
    (h1 : (tb.t1.bind pyInt).isSome = true)
    (h2 : (tb.t2.bind pyInt).isSome = true) :
    ∃ row, rowOfTb sk blk tb = some row ∧
      ((d < 1 ∨ 7 < d) → row.day_name = intStr d) ∧
      (d = 1 → row.day_name = "Sun") ∧ (d = 2 → row.day_name = "Mon") ∧
      (d = 3 → row.day_name = "Tue") ∧ (d = 4 → row.day_name = "Wed") ∧
      (d = 5 → row.day_name = "Thu") ∧ (d = 6 → row.day_name = "Fri") ∧
      (d = 7 → row.day_name = "Sat") := by
  rcases hds : tb.day with _ | ds
  · rw [hds] at hd
    exact absurd hd (by simp)
  · rw [hds] at hd
    simp only [Option.some_bind] at hd
    rcases ht1 : tb.t1 with _ | t1s
    · rw [ht1] at h1
      exact absurd h1 (by simp)
    · rcases ht2 : tb.t2 with _ | t2s
      · rw [ht2] at h2
        exact absurd h2 (by simp)
      · rw [ht1] at h1
        rw [ht2] at h2
        simp only [Option.some_bind, Option.isSome_iff_exists] at h1 h2
        obtain ⟨a1, ha1⟩ := h1
        obtain ⟨a2, ha2⟩ := h2
        have hrow : rowOfTb sk blk tb = some
            { selection_key := sk, block_type := blk.type, sec_no := blk.secNo,
              room := if blk.room == "" then none else some blk.room,
              timeblock_id := tb.tbid, day_num := d, day_name := dayNameOf d,
              start_min := a1, end_min := a2,
              start_time := minutes_to_hhmm a1,
              end_time := minutes_to_hhmm a2 } := by
          simp [rowOfTb, hds, ht1, ht2, hd, ha1, ha2]
        refine ⟨_, hrow, fun hout => dayNameOf_out_of_range d hout,
          ?_, ?_, ?_, ?_, ?_, ?_, ?_⟩ <;>
          · intro hdk
            subst hdk
            first
            | exact (by decide : dayNameOf 1 = "Sun")
            | exact (by decide : dayNameOf 2 = "Mon")
            | exact (by decide : dayNameOf 3 = "Tue")
            | exact (by decide : dayNameOf 4 = "Wed")
            | exact (by decide : dayNameOf 5 = "Thu")
            | exact (by decide : dayNameOf 6 = "Fri")
            | exact (by decide : dayNameOf 7 = "Sat")

/-- Closed instance of `inserted_day_name` at day number 10. -/
theorem inserted_day_name_witness :
    ∃ row, rowOfTb (some "S1") ⟨some "LEC", some "C01", "BSB 147", [tbDayTen]⟩
        tbDayTen = some row ∧ row.day_name = intStr 10 := by
  obtain ⟨row, hrow, hout, _⟩ :=
    inserted_day_name (some "S1") ⟨some "LEC", some "C01", "BSB 147", [tbDayTen]⟩
      tbDayTen 10 (by decide) (by decide) (by decide)
  exact ⟨row, hrow, hout (by omega)⟩

theorem charListLe_total : ∀ as bs : List Char,
    (charListLe as bs || charListLe bs as) = true := by
  intro as
  induction as with
  | nil => intro bs; simp [charListLe]
  | cons a as ih =>
    intro bs
    cases bs with
    | nil => simp [charListLe]
    | cons b bs =>
      by_cases hab : a < b
      · simp [charListLe, hab]
      · by_cases hba : b < a
        · simp [charListLe, hab, hba]
        · simp [charListLe, hab, hba, ih bs]

theorem charListLe_trans : ∀ as bs cs : List Char,
    charListLe as bs = true → charListLe bs cs = true →
      charListLe as cs = true := by
  intro as
  induction as with
  | nil => intro bs cs h1 h2; simp [charListLe]
  | cons a as ih =>
    intro bs cs h1 h2
    cases bs with
    | nil => simp [charListLe] at h1
    | cons b bs =>
      cases cs with
      | nil => simp [charListLe] at h2
      | cons c cs =>
        by_cases hba : b < a
        · rw [show charListLe (a :: as) (b :: bs)
              = if a < b then true else if b < a then false else charListLe as bs
            from rfl, if_neg (lt_asymm hba), if_pos hba] at h1
          exact absurd h1 (by simp)
        · by_cases hcb : c < b
          · rw [show charListLe (b :: bs) (c :: cs)
                = if b < c then true else if c < b then false else charListLe bs cs
              from rfl, if_neg (lt_asymm hcb), if_pos hcb] at h2
            exact absurd h2 (by simp)
          · by_cases hab : a < b
            · by_cases hbc : b < c
              · simp [charListLe, lt_trans hab hbc]
              · have hbe : b = c := le_antisymm (not_lt.mp hcb) (not_lt.mp hbc)
                subst hbe
                simp [charListLe, hab]
            · have hae : a = b := le_antisymm (not_lt.mp hba) (not_lt.mp hab)
              subst hae
              by_cases hac : a < c
              · simp [charListLe, hac]
              · have hce : a = c := le_antisymm (not_lt.mp hcb) (not_lt.mp hac)
                subst hce
                rw [show charListLe (a :: as) (a :: bs)
                    = if a < a then true else if a < a then false else charListLe as bs
                  from rfl, if_neg (lt_irrefl a), if_neg (lt_irrefl a)] at h1
                rw [show charListLe (a :: bs) (a :: cs)
                    = if a < a then true else if a < a then false else charListLe bs cs
                  from rfl, if_neg (lt_irrefl a), if_neg (lt_irrefl a)] at h2
                rw [show charListLe (a :: as) (a :: cs)
                    = if a < a then true else if a < a then false else charListLe as cs
                  from rfl, if_neg (lt_irrefl a), if_neg (lt_irrefl a)]
                exact ih bs cs h1 h2

theorem pyStrLe_total (a b : String) : (pyStrLe a b || pyStrLe b a) = true :=
  charListLe_total a.data b.data

theorem pyStrLe_trans (a b c : String) (h1 : pyStrLe a b = true)
    (h2 : pyStrLe b c = true) : pyStrLe a c = true :=
  charListLe_trans a.data b.data c.data h1 h2

theorem mem_insertSorted (x a : String) :
    ∀ l : List String, a ∈ insertSorted x l ↔ a = x ∨ a ∈ l := by
  intro l
  induction l with
  | nil => simp [insertSorted]
  | cons y ys ih =>
    by_cases h : pyStrLe x y = true
    · simp [insertSorted, h]
    · simp only [insertSorted, if_neg h, List.mem_cons, ih]
      tauto

theorem pairwise_insertSorted (x : String) :
    ∀ l : List String, l.Pairwise (fun a b => pyStrLe a b = true) →
      (insertSorted x l).Pairwise (fun a b => pyStrLe a b = true) := by
  intro l
  induction l with
  | nil =>
    intro _
    simp [insertSorted]
  | cons y ys ih =>
    intro hp
    obtain ⟨hy, hys⟩ := List.pairwise_cons.mp hp
    by_cases h : pyStrLe x y = true
    · simp only [insertSorted, if_pos h]
      refine List.pairwise_cons.mpr ⟨?_, hp⟩
      intro b hb
      rcases List.mem_cons.mp hb with hbe | hbys
      · rw [hbe]
        exact h
      · exact pyStrLe_trans x y b h (hy b hbys)
    · simp only [insertSorted, if_neg h]
      refine List.pairwise_cons.mpr ⟨?_, ih hys⟩
      intro b hb
      rcases (mem_insertSorted x b ys).mp hb with hbe | hbys
      · rw [hbe]
        have htot := pyStrLe_total x y
        have hf : pyStrLe x y = false := by
          cases hxy : pyStrLe x y
          · rfl
          · exact absurd hxy h
        rw [hf] at htot
        simpa using htot
      · exact hy b hbys

theorem nodup_insertSorted (x : String) :
    ∀ l : List String, x ∉ l → l.Nodup → (insertSorted x l).Nodup := by
  intro l
  induction l with
  | nil =>
    intro _ _
    simp [insertSorted]
  | cons y ys ih =>
    intro hx hnd
    obtain ⟨hy, hys⟩ := List.nodup_cons.mp hnd
    by_cases h : pyStrLe x y = true
    · simp only [insertSorted, if_pos h]
      exact List.nodup_cons.mpr ⟨hx, hnd⟩
    · simp only [insertSorted, if_neg h]
      refine List.nodup_cons.mpr
        ⟨?_, ih (fun hmem => hx (List.mem_cons_of_mem y hmem)) hys⟩
      intro hmem
      rcases (mem_insertSorted x y ys).mp hmem with heq | hyys
      · exact hx (by rw [← heq]; exact List.mem_cons_self y ys)
      · exact hy hyys

theorem sortStrings_mem (a : String) : ∀ l, a ∈ sortStrings l ↔ a ∈ l := by
  intro l
  induction l with
  | nil => simp [sortStrings]
  | cons x xs ih =>
    rw [show sortStrings (x :: xs) = insertSorted x (sortStrings xs) from rfl,
        mem_insertSorted]
    simp [ih]

theorem sortStrings_pairwise :
    ∀ l, (sortStrings l).Pairwise (fun a b => pyStrLe a b = true) := by
  intro l
  induction l with
  | nil => simp [sortStrings]
  | cons x xs ih =>
    rw [show sortStrings (x :: xs) = insertSorted x (sortStrings xs) from rfl]
    exact pairwise_insertSorted x (sortStrings xs) ih

theorem sortStrings_nodup : ∀ l : List String, l.Nodup → (sortStrings l).Nodup := by
  intro l
  induction l with
  | nil =>
    intro _
    simp [sortStrings]
  | cons x xs ih =>
    intro hnd
    obtain ⟨hx, hxs⟩ := List.nodup_cons.mp hnd
    rw [show sortStrings (x :: xs) = insertSorted x (sortStrings xs) from rfl]
    exact nodup_insertSorted x (sortStrings xs)
      (fun hmem => hx ((sortStrings_mem x xs).mp hmem)) (ih hxs)

theorem cleanStep_nil (st : CleanState) : cleanStep st [] = st := rfl

theorem cleanStep_false_header (cs rj : List String) (c0 : String)
    (rest : List String) (h : (normalizeText c0 == "COURSE NAME") = true) :
    cleanStep ⟨false, cs, rj⟩ (c0 :: rest) = ⟨true, cs, rj⟩ := by
  simp [cleanStep, h]

theorem cleanStep_false_code (cs rj : List String) (c0 : String)
    (rest : List String) (subj cat : String)
    (hh : (normalizeText c0 == "COURSE NAME") = false)
    (hm : codeMatch (normalizeText c0) = some (subj, cat)) :
    cleanStep ⟨false, cs, rj⟩ (c0 :: rest)
      = ⟨false, addCode (subj ++ " " ++ cat) cs, rj⟩ := by
  simp [cleanStep, hh, hm]

theorem cleanStep_false_reject (cs rj : List String) (c0 : String)
    (rest : List String)
    (hh : (normalizeText c0 == "COURSE NAME") = false)
    (hm : codeMatch (normalizeText c0) = none) :
    cleanStep ⟨false, cs, rj⟩ (c0 :: rest)
      = ⟨false, cs, rj ++ [normalizeText c0]⟩ := by
  simp [cleanStep, hh, hm]

theorem cleanStep_true_code (cs rj : List String) (c0 : String)
    (rest : List String) (subj cat : String)
    (hm : codeMatch (normalizeText c0) = some (subj, cat)) :
    cleanStep ⟨true, cs, rj⟩ (c0 :: rest)
      = ⟨true, addCode (subj ++ " " ++ cat) cs, rj⟩ := by
  simp [cleanStep, hm]

theorem cleanStep_true_reject (cs rj : List String) (c0 : String)
    (rest : List String) (hm : codeMatch (normalizeText c0) = none) :
    cleanStep ⟨true, cs, rj⟩ (c0 :: rest)
      = ⟨true, cs, rj ++ [normalizeText c0]⟩ := by
  simp [cleanStep, hm]

theorem normTexts_nil : normTexts [] = [] := rfl

theorem normTexts_cons_empty (rows : List (List String)) :
    normTexts ([] :: rows) = normTexts rows := rfl

theorem normTexts_cons (c0 : String) (rest : List String)
    (rows : List (List String)) :
    normTexts ((c0 :: rest) :: rows) = normalizeText c0 :: normTexts rows := rfl

theorem rejected_foldl_true :
    ∀ (rows : List (List String)) (cs rj : List String),
    (rows.foldl cleanStep ⟨true, cs, rj⟩).rejected
      = rj ++ (normTexts rows).filter (fun t => (codeMatch t).isNone) := by
  intro rows
  induction rows with
  | nil =>
    intro cs rj
    simp [normTexts]
  | cons row rows ih =>
    intro cs rj
    rcases row with _ | ⟨c0, rest⟩
    · rw [List.foldl_cons, cleanStep_nil, ih, normTexts_cons_empty]
    · rw [List.foldl_cons, normTexts_cons]
      rcases hm : codeMatch (normalizeText c0) with _ | ⟨subj, cat⟩
      · rw [cleanStep_true_reject cs rj c0 rest hm, ih]
        simp [List.filter_cons, hm]
      · rw [cleanStep_true_code cs rj c0 rest subj cat hm, ih]
        simp [List.filter_cons, hm]

theorem rejected_foldl_false :
    ∀ (rows : List (List String)) (cs rj : List String),
    (rows.foldl cleanStep ⟨false, cs, rj⟩).rejected
      = rj ++ (dropFirstHeader (normTexts rows)).filter
          (fun t => (codeMatch t).isNone) := by
  intro rows
  induction rows with
  | nil =>
    intro cs rj
    simp [normTexts, dropFirstHeader]
  | cons row rows ih =>
    intro cs rj
    rcases row with _ | ⟨c0, rest⟩
    · rw [List.foldl_cons, cleanStep_nil, ih, normTexts_cons_empty]
    · rw [List.foldl_cons, normTexts_cons]
      by_cases hh : (normalizeText c0 == "COURSE NAME") = true
      · rw [cleanStep_false_header cs rj c0 rest hh, rejected_foldl_true rows cs rj,
            show dropFirstHeader (normalizeText c0 :: normTexts rows)
              = normTexts rows from by simp [dropFirstHeader, hh]]
      · have hh' : (normalizeText c0 == "COURSE NAME") = false := by
          cases hv : normalizeText c0 == "COURSE NAME"
          · rfl
          · exact absurd hv hh
        rw [show dropFirstHeader (normalizeText c0 :: normTexts rows)
            = normalizeText c0 :: dropFirstHeader (normTexts rows) from by
          simp [dropFirstHeader, hh']]
        rcases hm : codeMatch (normalizeText c0) with _ | ⟨subj, cat⟩
        · rw [cleanStep_false_reject cs rj c0 rest hh' hm, ih]
          simp [List.filter_cons, hm]
        · rw [cleanStep_false_code cs rj c0 rest subj cat hh' hm, ih]
          simp [List.filter_cons, hm]

theorem mem_addCode (c x : String) (l : List String) :
    c ∈ addCode x l ↔ c = x ∨ c ∈ l := by
  unfold addCode
  by_cases h : x ∈ l
  · rw [if_pos h]
    constructor
    · exact fun hc => Or.inr hc
    · rintro (rfl | hc)
      · exact h
      · exact hc
  · rw [if_neg h]
    simp [List.mem_append]
    tauto

theorem codes_foldl_true :
    ∀ (rows : List (List String)) (cs rj : List String) (c : String),
    c ∈ (rows.foldl cleanStep ⟨true, cs, rj⟩).codes ↔
      c ∈ cs ∨ c ∈ (normTexts rows).filterMap
        (fun t => (codeMatch t).map (fun pr => pr.1 ++ " " ++ pr.2)) := by
  intro rows
  induction rows with
  | nil =>
    intro cs rj c
    simp [normTexts]
  | cons row rows ih =>
    intro cs rj c
    rcases row with _ | ⟨c0, rest⟩
    · rw [List.foldl_cons, cleanStep_nil, normTexts_cons_empty]
      exact ih cs rj c
    · rw [List.foldl_cons, normTexts_cons]
      rcases hm : codeMatch (normalizeText c0) with _ | ⟨subj, cat⟩
      · rw [cleanStep_true_reject cs rj c0 rest hm]
        rw [show (normalizeText c0 :: normTexts rows).filterMap
            (fun t => (codeMatch t).map (fun pr => pr.1 ++ " " ++ pr.2))
          = (normTexts rows).filterMap
            (fun t => (codeMatch t).map (fun pr => pr.1 ++ " " ++ pr.2)) from by
          simp [List.filterMap_cons, hm]]
        exact ih cs (rj ++ [normalizeText c0]) c
      · rw [cleanStep_true_code cs rj c0 rest subj cat hm]
        rw [show (normalizeText c0 :: normTexts rows).filterMap
            (fun t => (codeMatch t).map (fun pr => pr.1 ++ " " ++ pr.2))
          = (subj ++ " " ++ cat) :: (normTexts rows).filterMap
            (fun t => (codeMatch t).map (fun pr => pr.1 ++ " " ++ pr.2)) from by
          simp [List.filterMap_cons, hm]]
        rw [ih (addCode (subj ++ " " ++ cat) cs) rj c, mem_addCode, List.mem_cons]
        constructor
        · rintro ((h | h) | h)
          · exact Or.inr (Or.inl h)
          · exact Or.inl h
          · exact Or.inr (Or.inr h)
        · rintro (h | h | h)
          · exact Or.inl (Or.inr h)
          · exact Or.inl (Or.inl h)
          · exact Or.inr h

theorem codes_foldl_false :
    ∀ (rows : List (List String)) (cs rj : List String) (c : String),
    c ∈ (rows.foldl cleanStep ⟨false, cs, rj⟩).codes ↔
      c ∈ cs ∨ c ∈ (dropFirstHeader (normTexts rows)).filterMap
        (fun t => (codeMatch t).map (fun pr => pr.1 ++ " " ++ pr.2)) := by
  intro rows
  induction rows with
  | nil =>
    intro cs rj c
    simp [normTexts, dropFirstHeader]
  | cons row rows ih =>
    intro cs rj c
    rcases row with _ | ⟨c0, rest⟩
    · rw [List.foldl_cons, cleanStep_nil, normTexts_cons_empty]
      exact ih cs rj c
    · rw [List.foldl_cons, normTexts_cons]
      by_cases hh : (normalizeText c0 == "COURSE NAME") = true
      · rw [cleanStep_false_header cs rj c0 rest hh,
            show dropFirstHeader (normalizeText c0 :: normTexts rows)
              = normTexts rows from by simp [dropFirstHeader, hh]]
        exact codes_foldl_true rows cs rj c
      · have hh' : (normalizeText c0 == "COURSE NAME") = false := by
          cases hv : normalizeText c0 == "COURSE NAME"
          · rfl
          · exact absurd hv hh
        rw [show dropFirstHeader (normalizeText c0 :: normTexts rows)
            = normalizeText c0 :: dropFirstHeader (normTexts rows) from by
          simp [dropFirstHeader, hh']]
        rcases hm : codeMatch (normalizeText c0) with _ | ⟨subj, cat⟩
        · rw [cleanStep_false_reject cs rj c0 rest hh' hm]
          rw [show (normalizeText c0 :: dropFirstHeader (normTexts rows)).filterMap
              (fun t => (codeMatch t).map (fun pr => pr.1 ++ " " ++ pr.2))
            = (dropFirstHeader (normTexts rows)).filterMap
              (fun t => (codeMatch t).map (fun pr => pr.1 ++ " " ++ pr.2)) from by
            simp [List.filterMap_cons, hm]]
          exact ih cs (rj ++ [normalizeText c0]) c
        · rw [cleanStep_false_code cs rj c0 rest subj cat hh' hm]
          rw [show (normalizeText c0 :: dropFirstHeader (normTexts rows)).filterMap
              (fun t => (codeMatch t).map (fun pr => pr.1 ++ " " ++ pr.2))
            = (subj ++ " " ++ cat) :: (dropFirstHeader (normTexts rows)).filterMap
              (fun t => (codeMatch t).map (fun pr => pr.1 ++ " " ++ pr.2)) from by
            simp [List.filterMap_cons, hm]]
          rw [ih (addCode (subj ++ " " ++ cat) cs) rj c, mem_addCode, List.mem_cons]
          constructor
          · rintro ((h | h) | h)
            · exact Or.inr (Or.inl h)
            · exact Or.inl h
            · exact Or.inr (Or.inr h)
          · rintro (h | h | h)
            · exact Or.inl (Or.inr h)
            · exact Or.inl (Or.inl h)
            · exact Or.inr h

theorem nodup_addCode (x : String) (l : List String) (h : l.Nodup) :
    (addCode x l).Nodup := by
  unfold addCode
  by_cases hx : x ∈ l
  · rw [if_pos hx]
    exact h
  · rw [if_neg hx]
    simp [List.nodup_append, h, hx]

theorem codes_foldl_nodup :
    ∀ (rows : List (List String)) (st : CleanState),
    st.codes.Nodup → (rows.foldl cleanStep st).codes.Nodup := by
  intro rows
  induction rows with
  | nil =>
    intro st h
    exact h
  | cons row rows ih =>
    intro st h
    rw [List.foldl_cons]
    apply ih
    rcases st with ⟨hs, cs, rj⟩
    rcases row with _ | ⟨c0, rest⟩
    · rw [cleanStep_nil]
      exact h
    · cases hs with
      | false =>
        by_cases hh : (normalizeText c0 == "COURSE NAME") = true
        · rw [cleanStep_false_header cs rj c0 rest hh]
          exact h
        · have hh' : (normalizeText c0 == "COURSE NAME") = false := by
            cases hv : normalizeText c0 == "COURSE NAME"
            · rfl
            · exact absurd hv hh
          rcases hm : codeMatch (normalizeText c0) with _ | ⟨subj, cat⟩
          · rw [cleanStep_false_reject cs rj c0 rest hh' hm]
            exact h
          · rw [cleanStep_false_code cs rj c0 rest subj cat hh' hm]
            exact nodup_addCode _ cs h
      | true =>
        rcases hm : codeMatch (normalizeText c0) with _ | ⟨subj, cat⟩
        · rw [cleanStep_true_reject cs rj c0 rest hm]
          exact h
        · rw [cleanStep_true_code cs rj c0 rest subj cat hm]
          exact nodup_addCode _ cs h

/-- C7 counterexample: a non-matching input line reaches the reject
file normalized (here uppercased), not verbatim. -/
theorem rejects_are_normalized_not_verbatim :
    rejectsOut [["some bad line"]] = ["SOME BAD LINE"] ∧
    ("SOME BAD LINE" : String) ≠ "some bad line" := by decide

/-- C7 (amended): the code extractor writes the matched codes as
sorted, deduplicated `SUBJECT NUMBER` strings - the output is sorted,
duplicate-free, and holds exactly the matched codes - while the
reject file holds the normalized text (dashes mapped, bullets
stripped, stripped, uppercased) of every processed non-matching line
in input order, not the verbatim input line; empty rows and the
first `COURSE NAME` header row are dropped entirely. -/
theorem cleandata_outputs (rows : List (List String)) :
    (codesOut rows).Pairwise (fun a b => pyStrLe a b = true) ∧
    (codesOut rows).Nodup ∧
    (∀ c, c ∈ codesOut rows ↔ c ∈ matchedCodes rows) ∧
    rejectsOut rows = (dropFirstHeader (normTexts rows)).filter
      (fun t => (codeMatch t).isNone) := by
  refine ⟨sortStrings_pairwise _,
    sortStrings_nodup _ (codes_foldl_nodup rows ⟨false, [], []⟩ (by simp)), ?_, ?_⟩
  · intro c
    rw [show codesOut rows = sortStrings (cleanFold rows).codes from rfl,
        sortStrings_mem]
    rw [show cleanFold rows = rows.foldl cleanStep ⟨false, [], []⟩ from rfl]
    rw [codes_foldl_false rows [] [] c]
    simp [matchedCodes]
  · exact rejected_foldl_false rows [] []
